import Mathlib

/-!
Verification of the text-buffer viewport engine of the `neonano` editor
(`src/component/line.rs` and `src/component/content.rs`), shallowly embedded
in Lean.  Lines are modelled as lists of Unicode scalar characters; byte
offsets are computed with `Char.utf8Size`, display columns with the fixed
tab-stop model of the source.  Fallible operations (`Res` in the source)
return `Option`, with `none` as the error case.
-/

namespace Neonano

/-- Tab stop width, `TAB_SIZE` in `line.rs`. -/
def TAB_SIZE : Nat := 4

/-- `char_width` from `line.rs`: tabs occupy `TAB_SIZE` columns, everything
else one column. -/
def char_width (c : Char) : Nat := if c = '\t' then TAB_SIZE else 1

/-- `Index` from `line.rs`: a resolved position inside a line, as a display
column and a byte offset. -/
structure Index where
  display : Nat
  byte : Nat
deriving DecidableEq

/-- `RawIndex` from `line.rs`: a possibly stale cursor position. -/
inductive RawIndex where
  | Valid : Index → RawIndex
  | Invalid : Nat → RawIndex
deriving DecidableEq

/-- `RawIndex::display`. -/
def RawIndex.display : RawIndex → Nat
  | .Valid i => i.display
  | .Invalid d => d

/-- `RawIndex::index_front`. -/
def RawIndex.index_front : RawIndex := .Valid ⟨0, 0⟩

/-- `RawIndex::at_front`. -/
def RawIndex.at_front (r : RawIndex) : Bool := r.display == 0

/-- `RawIndex::invalidate`: a valid index degrades to its display column. -/
def RawIndex.invalidate : RawIndex → RawIndex
  | .Valid i => .Invalid i.display
  | r => r

/-- `Line` from `line.rs`: the content of one line, with no embedded
newline.  The Rust `String` is modelled as its list of characters. -/
structure Line where
  content : List Char
deriving DecidableEq

/-- The index stream produced by the `scan` in `Line::indices_from`: for each
character of the remaining content it yields the index *before* stepping over
that character, then advances the internal state by the character's display
width and UTF-8 byte length. -/
def scanIndices : Index → List Char → List Index
  | _, [] => []
  | i, c :: cs => i :: scanIndices ⟨i.display + char_width c, i.byte + c.utf8Size⟩ cs

/-- `content.get(n..)`: the character suffix starting at byte offset `n`,
`none` when `n` is not on a character boundary. -/
def dropBytes : Nat → List Char → Option (List Char)
  | 0, cs => some cs
  | _ + 1, [] => none
  | n + 1, c :: cs =>
    if c.utf8Size ≤ n + 1 then dropBytes (n + 1 - c.utf8Size) cs else none

/-- `content.get(..n)`: the character prefix of byte length `n`, `none` when
`n` is not on a character boundary. -/
def takeBytes : Nat → List Char → Option (List Char)
  | 0, _ => some []
  | _ + 1, [] => none
  | n + 1, c :: cs =>
    if c.utf8Size ≤ n + 1 then (takeBytes (n + 1 - c.utf8Size) cs).map (c :: ·) else none

/-- The reverse index stream of `Line::rindices_from`, applied to the
reversed prefix before the start index: each step yields the index before
stepping, then subtracts the character's width and byte length. -/
def rscanIndices : Index → List Char → List Index
  | _, [] => []
  | i, c :: cs => i :: rscanIndices ⟨i.display - char_width c, i.byte - c.utf8Size⟩ cs

/-- `Line::indices_from`. -/
def Line.indices_from (L : Line) (i : Index) : Option (List Index) :=
  (dropBytes i.byte L.content).map (scanIndices i)

/-- `Line::rindices_from`. -/
def Line.rindices_from (L : Line) (i : Index) : Option (List Index) :=
  (takeBytes i.byte L.content).map (fun pre => rscanIndices i pre.reverse)

/-- `Line::indices`: the char-start indices of the whole content. -/
def Line.indices (L : Line) : List Index := scanIndices ⟨0, 0⟩ L.content

/-- The `try_fold` inside `Line::correct_index`: stop at the first index
whose display column reaches the target, otherwise keep folding with the
last index's display incremented by one. -/
def correctFold (d : Nat) : Index → List Index → Index
  | acc, [] => acc
  | _, v :: rest =>
    if d ≤ v.display then v else correctFold d ⟨v.display + 1, v.byte⟩ rest

/-- `Line::correct_index`. -/
def Line.correct_index (L : Line) (r : RawIndex) : Index :=
  match r with
  | .Valid v => v
  | .Invalid d => correctFold d ⟨0, 0⟩ L.indices

/-- `Line::index_forward`: the first element of `indices_from`. -/
def Line.index_forward (L : Line) (i : Index) : Option (Option Index) :=
  (L.indices_from i).map List.head?

/-- `Line::index_backward`: the first element of `rindices_from`. -/
def Line.index_backward (L : Line) (i : Index) : Option (Option Index) :=
  (L.rindices_from i).map List.head?

/-- `Line::index_back`. -/
def Line.index_back (L : Line) (r : RawIndex) : Option Index :=
  match r with
  | .Valid i => (L.indices_from i).map (fun l => l.getLast?.getD i)
  | .Invalid _ => some (L.indices.getLast?.getD ⟨0, 0⟩)

/-- Total UTF-8 byte length of a character list. -/
def byteLen (cs : List Char) : Nat := (cs.map Char.utf8Size).sum

/-- Total display width of a character list. -/
def widthSum (cs : List Char) : Nat := (cs.map char_width).sum

/-- The amended behaviour of `correct_index` on an `Invalid` target, written
from the corrected specification words: the first char-start index whose
display column is at least the target; if none reaches the target, the last
char-start index with its display bumped by one (byte unchanged); the zero
index for the empty line. -/
def correctIndexSpec (L : Line) (d : Nat) : Index :=
  match L.indices.find? (fun v => d ≤ v.display) with
  | some v => v
  | none =>
    match L.indices.getLast? with
    | some last => ⟨last.display + 1, last.byte⟩
    | none => ⟨0, 0⟩

/-! ## The viewport (`Buffer` in `content.rs`) -/

/-- `SCROLL_GRACE` from `content.rs`. -/
def SCROLL_GRACE : Nat := 3

/-- `2^64`, the modulus of Rust's `usize` arithmetic on 64-bit targets. -/
def USIZE : Nat := 18446744073709551616

/-- Rust `usize` subtraction as performed by a release build: exact when it
does not underflow, otherwise wrapping modulo `2^64`. -/
def usize_sub (a b : Nat) : Nat :=
  if b ≤ a then a - b else (USIZE - (b - a) % USIZE) % USIZE

/-- The `Buffer` state from `content.rs`.  `bounds` is reduced to its height,
the only part the viewport algorithms read. -/
structure Buffer where
  lines : List Line
  above : List Char
  below : List Char
  active : Nat
  index : RawIndex
  offset : Nat
  line_num_width : Nat
  height : Nat
  recycle : List Line
deriving DecidableEq

/-- `VecDeque::pop_front`. -/
def popFront : List Line → Option (Line × List Line)
  | [] => none
  | x :: xs => some (x, xs)

/-- `str::trim_start_matches('\n')`. -/
def trim_start_nl (s : List Char) : List Char := s.dropWhile (· == '\n')

/-- `str::rfind('\n')`, returned as the split around the last newline:
`some (pre, suf)` with the input equal to `pre ++ '\n' :: suf` and no newline
in `suf`; `none` when the input holds no newline. -/
def rfindNlAux : List Char → Option (List Char × List Char)
  | [] => none
  | c :: cs =>
    match rfindNlAux cs with
    | some (pre, suf) => some (c :: pre, suf)
    | none => if c = '\n' then some ([], cs) else none

/-- `Buffer::insert_below`: push a newline and the line's text onto the end
of `below`, and hand the line object to the recycle pool. -/
def insert_below (b : Buffer) (line : Line) : Buffer :=
  { b with below := b.below ++ '\n' :: line.content, recycle := line :: b.recycle }

/-- `Buffer::insert_above`. -/
def insert_above (b : Buffer) (line : Line) : Buffer :=
  { b with above := b.above ++ '\n' :: line.content, recycle := line :: b.recycle }

/-- `Buffer::take_from_below`: split the text after the last newline off the
`below` block into a recycled (cleared) line object; error (`none`) when the
non-empty block holds no newline. -/
def take_from_below (b : Buffer) : Option (Option Line × Buffer) :=
  if b.below = [] then some (none, b)
  else
    match rfindNlAux b.below with
    | none => none
    | some (pre, suf) =>
      some (some ⟨trim_start_nl ('\n' :: suf)⟩,
        { b with below := pre, recycle := b.recycle.tail })

/-- `Buffer::take_from_above`. -/
def take_from_above (b : Buffer) : Option (Option Line × Buffer) :=
  if b.above = [] then some (none, b)
  else
    match rfindNlAux b.above with
    | none => none
    | some (pre, suf) =>
      some (some ⟨trim_start_nl ('\n' :: suf)⟩,
        { b with above := pre, recycle := b.recycle.tail })

/-- The gutter-width table of `Buffer::scroll_down`. -/
def gutterGrowth (offset : Nat) : Nat :=
  if offset = 1000 then 4
  else if offset = 10000 then 5
  else if offset = 100000 then 6
  else if offset = 1000000 then 7
  else if offset = 10000000 then 8
  else 0

/-- `Buffer::scroll_down`: move one line from `below` onto the visible tail
and the visible head onto `above`, bumping `offset` and the gutter width. -/
def scroll_down (b : Buffer) : Option (Bool × Buffer) :=
  match take_from_below b with
  | none => none
  | some (none, b1) => some (false, b1)
  | some (some line, b1) =>
    let b2 : Buffer := { b1 with lines := b1.lines ++ [line] }
    match popFront b2.lines with
    | none => none
    | some (front, rest) =>
      let b3 := insert_above { b2 with lines := rest } front
      let offset' := b3.offset + 1
      some (true, { b3 with
        offset := offset',
        line_num_width := max b3.line_num_width (gutterGrowth offset') })

/-- The shrinking loop of `Buffer::fix_lines` (`len > height`): pop lines off
the visible tail into `below`. -/
def shrink_lines : Nat → Buffer → Option Buffer
  | 0, b => some b
  | n + 1, b =>
    match b.lines.getLast? with
    | none => none
    | some last => shrink_lines n (insert_below { b with lines := b.lines.dropLast } last)

/-- The growing loop of `Buffer::fix_lines` (`len < height`): pull lines from
`below` onto the visible tail while any remain. -/
def grow_lines : Nat → Buffer → Option Buffer
  | 0, b => some b
  | n + 1, b =>
    match take_from_below b with
    | none => none
    | some (some line, b1) => grow_lines n { b1 with lines := b1.lines ++ [line] }
    | some (none, b1) => grow_lines n b1

/-- `Buffer::fix_lines`. -/
def fix_lines (b : Buffer) : Option Buffer :=
  if b.height < b.lines.length then shrink_lines (b.lines.length - b.height) b
  else if b.lines.length < b.height then grow_lines (b.height - b.lines.length) b
  else some b

/-- `Buffer::scroll_up`. -/
def scroll_up (b : Buffer) : Option (Bool × Buffer) :=
  match take_from_above b with
  | none => none
  | some (none, b1) => some (false, b1)
  | some (some line, b1) =>
    match fix_lines { b1 with lines := line :: b1.lines } with
    | none => none
    | some b2 => some (true, { b2 with offset := usize_sub b2.offset 1 })

/-- `Buffer::cursor_down`.  The first guard compares against
`lines.len() - SCROLL_GRACE`, a `usize` subtraction that wraps when the
file has fewer than `SCROLL_GRACE` lines. -/
def cursor_down (b : Buffer) : Option (Bool × Buffer) :=
  if b.active < usize_sub b.lines.length SCROLL_GRACE then
    some (true, { b with active := b.active + 1, index := b.index.invalidate })
  else
    match scroll_down b with
    | none => none
    | some (true, b1) => some (true, { b1 with index := b1.index.invalidate })
    | some (false, b1) =>
      if b1.active < usize_sub b1.lines.length 1 then
        some (true, { b1 with active := b1.active + 1, index := b1.index.invalidate })
      else
        some (false, b1)

/-- `Buffer::cursor_up`. -/
def cursor_up (b : Buffer) : Option (Bool × Buffer) :=
  if SCROLL_GRACE < b.active then
    some (true, { b with active := usize_sub b.active 1, index := b.index.invalidate })
  else
    match scroll_up b with
    | none => none
    | some (true, b1) => some (true, { b1 with index := b1.index.invalidate })
    | some (false, b1) =>
      if 0 < b1.active then
        some (true, { b1 with active := usize_sub b1.active 1, index := b1.index.invalidate })
      else
        some (false, b1)

/-- The current line, `Buffer::current_line` (`none` is the
"active is valid" error). -/
def current_line (b : Buffer) : Option Line := b.lines.get? b.active

/-- The `Key::Down` arm of `Buffer::update`: move the cursor down; when that
reports no movement, clamp the cursor index to `index_back` of the active
line. -/
def updateDown (b : Buffer) : Option Buffer :=
  match cursor_down b with
  | none => none
  | some (true, b1) => some b1
  | some (false, b1) =>
    match current_line b1 with
    | none => none
    | some line =>
      match line.index_back b1.index with
      | none => none
      | some i => some { b1 with index := RawIndex.Valid i }

/-- The `Key::Up` arm of `Buffer::update`. -/
def updateUp (b : Buffer) : Option Buffer :=
  match cursor_up b with
  | none => none
  | some (true, b1) => some b1
  | some (false, b1) => some { b1 with index := RawIndex.index_front }

/-- Number of decimal digits of `n`, the length of `format!("{}", n)`;
fuelled so that it evaluates by reduction (the fuel `n` always suffices). -/
def digitsAux : Nat → Nat → Nat
  | 0, _ => 1
  | fuel + 1, n => if n < 10 then 1 else digitsAux fuel (n / 10) + 1

/-- Decimal digit count used for the initial gutter width in `Buffer::open`. -/
def digits (n : Nat) : Nat := digitsAux n n

/-- The flattened text of a list of lines as stored in `above`: each line
preceded by one newline, in order. -/
def encodeFwd : List Line → List Char
  | [] => []
  | l :: ls => '\n' :: l.content ++ encodeFwd ls

/-- The flattened text of a list of lines as stored in `below`: the same
joining applied to the reversed list, so the first line of the list sits at
the end of the block. -/
def encodeRev (ls : List Line) : List Char := encodeFwd ls.reverse

/-- `Buffer::open`, starting from the file's list of lines (the result of
splitting the file on line terminators) and the bounds height: the first
`height` lines are visible, the remainder is joined into `below` in reverse
order with each line preceded by a newline. -/
def openBuffer (file : List Line) (height : Nat) : Buffer :=
  { lines := file.take height
    above := []
    below := if height < file.length then encodeRev (file.drop height) else []
    active := 0
    index := RawIndex.index_front
    offset := 0
    line_num_width := max 3 (digits file.length)
    height := height
    recycle := [] }

/-- A scroll step, the operation alphabet of the round-trip claim. -/
inductive ScrollOp where
  | up
  | down
deriving DecidableEq

/-- Apply one scroll step. -/
def applyScrollOp : ScrollOp → Buffer → Option Buffer
  | .up, b => (scroll_up b).map Prod.snd
  | .down, b => (scroll_down b).map Prod.snd

/-- Apply a sequence of scroll steps in order. -/
def applyScrollOps : List ScrollOp → Buffer → Option Buffer
  | [], b => some b
  | op :: ops, b => (applyScrollOp op b).bind (applyScrollOps ops)

/-- A vertical-movement step: raw scrolls and cursor moves. -/
inductive VOp where
  | scrollUp
  | scrollDown
  | cursorUp
  | cursorDown
deriving DecidableEq

/-- Apply one vertical-movement step. -/
def applyVOp : VOp → Buffer → Option Buffer
  | .scrollUp, b => (scroll_up b).map Prod.snd
  | .scrollDown, b => (scroll_down b).map Prod.snd
  | .cursorUp, b => (cursor_up b).map Prod.snd
  | .cursorDown, b => (cursor_down b).map Prod.snd

/-- Apply a sequence of vertical-movement steps in order. -/
def applyVOps : List VOp → Buffer → Option Buffer
  | [], b => some b
  | op :: ops, b => (applyVOp op b).bind (applyVOps ops)

/-- The above/visible/below partition invariant: the two text blocks decode
to line lists that, wrapped around the visible lines, reproduce the file,
and `offset` counts the lines scrolled into `above`. -/
def Partition (file : List Line) (b : Buffer) : Prop :=
  ∃ a bl, b.above = encodeFwd a ∧ b.below = encodeRev bl ∧
    a ++ b.lines ++ bl = file ∧ b.offset = a.length

/-! ## Concrete fixtures used by the claim instances -/

/-- A ten-line file whose lines are the digits `0`..`9` (scenario A/B). -/
def file10 : List Line :=
  [⟨['0']⟩, ⟨['1']⟩, ⟨['2']⟩, ⟨['3']⟩, ⟨['4']⟩, ⟨['5']⟩, ⟨['6']⟩, ⟨['7']⟩, ⟨['8']⟩, ⟨['9']⟩]

/-- A three-line file. -/
def file3 : List Line := [⟨['a']⟩, ⟨['b']⟩, ⟨['c']⟩]

/-- A two-line file, shorter than the scroll grace. -/
def file2 : List Line := [⟨['a']⟩, ⟨['b']⟩]

/-- A buffer sitting on the true last line of a three-line file, as reached
from `openBuffer file3 5` by two Down key events. -/
def lastLineBuf : Buffer :=
  { lines := file3, above := [], below := [], active := 2, index := RawIndex.Invalid 0,
    offset := 0, line_num_width := 3, height := 5, recycle := [] }

/-- Four consecutive Down key events (scenario B). -/
def down4 (b : Buffer) : Option Buffer :=
  (((updateDown b).bind updateDown).bind updateDown).bind updateDown

/-- A two-line example file for the round-trip witness. -/
def fileP : List Line := [⟨['p']⟩, ⟨['q']⟩]

/-- A three-line example file for the offset-invariant witness. -/
def fileX : List Line := [⟨['x']⟩, ⟨['y']⟩, ⟨['z']⟩]

/-- A two-line example file for the reservoir-newline witness. -/
def fileW : List Line := [⟨['u']⟩, ⟨['v']⟩]

/-! ## Helper lemmas about the text-block encoding -/

theorem encodeFwd_append (xs ys : List Line) :
    encodeFwd (xs ++ ys) = encodeFwd xs ++ encodeFwd ys := by
  induction xs with
  | nil => rfl
  | cons x xs ih => simp [encodeFwd, ih]

theorem encodeFwd_concat (xs : List Line) (x : Line) :
    encodeFwd (xs ++ [x]) = encodeFwd xs ++ '\n' :: x.content := by
  simp [encodeFwd_append, encodeFwd]

theorem encodeRev_cons (x : Line) (xs : List Line) :
    encodeRev (x :: xs) = encodeRev xs ++ '\n' :: x.content := by
  simp [encodeRev, List.reverse_cons, encodeFwd_concat]

theorem encodeRev_nil : encodeRev [] = [] := rfl

theorem rfindNl_of_not_mem {s : List Char} (h : '\n' ∉ s) : rfindNlAux s = none := by
  induction s with
  | nil => rfl
  | cons c cs ih =>
    simp only [List.mem_cons, not_or] at h
    have hc : ¬ (c = '\n') := fun hc => h.1 hc.symm
    simp [rfindNlAux, ih h.2, hc]

theorem rfindNl_append {suf : List Char} (pre : List Char) (h : '\n' ∉ suf) :
    rfindNlAux (pre ++ '\n' :: suf) = some (pre, suf) := by
  induction pre with
  | nil => simp [rfindNlAux, rfindNl_of_not_mem h]
  | cons c cs ih => simp [rfindNlAux, ih]

theorem trim_start_nl_cons {suf : List Char} (h : '\n' ∉ suf) :
    trim_start_nl ('\n' :: suf) = suf := by
  cases suf with
  | nil => rfl
  | cons c cs =>
    simp only [List.mem_cons, not_or] at h
    have hc : (c == '\n') = false := by
      simp only [beq_eq_false_iff_ne, ne_eq]
      exact fun hc => h.1 hc.symm
    simp [trim_start_nl, List.dropWhile, hc]

theorem take_from_below_nil {b : Buffer} (h : b.below = []) :
    take_from_below b = some (none, b) := by
  simp [take_from_below, h]

theorem take_from_below_cons {b : Buffer} {x : Line} {xs : List Line}
    (hb : b.below = encodeRev (x :: xs)) (hx : '\n' ∉ x.content) :
    take_from_below b = some (some x,
      { b with below := encodeRev xs, recycle := b.recycle.tail }) := by
  have hsplit : rfindNlAux b.below = some (encodeRev xs, x.content) := by
    rw [hb, encodeRev_cons]
    exact rfindNl_append _ hx
  have hne : b.below ≠ [] := by
    rw [hb, encodeRev_cons]
    simp
  simp [take_from_below, hne, hsplit, trim_start_nl_cons hx]

theorem take_from_above_nil {b : Buffer} (h : b.above = []) :
    take_from_above b = some (none, b) := by
  simp [take_from_above, h]

theorem take_from_above_concat {b : Buffer} {x : Line} {xs : List Line}
    (hb : b.above = encodeFwd (xs ++ [x])) (hx : '\n' ∉ x.content) :
    take_from_above b = some (some x,
      { b with above := encodeFwd xs, recycle := b.recycle.tail }) := by
  have hsplit : rfindNlAux b.above = some (encodeFwd xs, x.content) := by
    rw [hb, encodeFwd_concat]
    exact rfindNl_append _ hx
  have hne : b.above ≠ [] := by
    rw [hb, encodeFwd_concat]
    simp
  simp [take_from_above, hne, hsplit, trim_start_nl_cons hx]

/-! ## Preservation of the partition by the scrolling machinery -/

theorem grow_lines_spec : ∀ (n : Nat) (b : Buffer) (bl : List Line),
    b.below = encodeRev bl → (∀ l ∈ bl, '\n' ∉ l.content) →
    ∃ b' bl', grow_lines n b = some b' ∧
      b'.below = encodeRev bl' ∧ (∀ l ∈ bl', '\n' ∉ l.content) ∧
      b'.lines ++ bl' = b.lines ++ bl ∧
      b'.above = b.above ∧ b'.offset = b.offset := by
  intro n
  induction n with
  | zero =>
    intro b bl hb hg
    exact ⟨b, bl, rfl, hb, hg, rfl, rfl, rfl⟩
  | succ n ih =>
    intro b bl hb hg
    cases bl with
    | nil =>
      have h0 : b.below = [] := hb
      obtain ⟨b', bl', h1, h2, h3, h4, h5, h6⟩ := ih b [] h0 (by simp)
      exact ⟨b', bl', by simp [grow_lines, take_from_below_nil h0, h1], h2, h3, h4, h5, h6⟩
    | cons x xs =>
      have hx : '\n' ∉ x.content := hg x (by simp)
      have hxs : ∀ l ∈ xs, '\n' ∉ l.content := fun l hl => hg l (by simp [hl])
      have htake := take_from_below_cons hb hx
      obtain ⟨b', bl', h1, h2, h3, h4, h5, h6⟩ :=
        ih { b with lines := b.lines ++ [x], below := encodeRev xs, recycle := b.recycle.tail } xs rfl hxs
      refine ⟨b', bl', ?_, h2, h3, ?_, h5, h6⟩
      · simp only [grow_lines, htake]
        exact h1
      · rw [h4]
        simp

theorem shrink_lines_spec : ∀ (n : Nat) (b : Buffer) (bl : List Line),
    n ≤ b.lines.length → b.below = encodeRev bl →
    ∃ b' bl', shrink_lines n b = some b' ∧
      b'.below = encodeRev bl' ∧
      b'.lines ++ bl' = b.lines ++ bl ∧
      b'.above = b.above ∧ b'.offset = b.offset ∧
      (∀ l ∈ bl', l ∈ b.lines ∨ l ∈ bl) := by
  intro n
  induction n with
  | zero =>
    intro b bl _ hb
    exact ⟨b, bl, rfl, hb, rfl, rfl, rfl, fun l hl => Or.inr hl⟩
  | succ n ih =>
    intro b bl hn hb
    rcases List.eq_nil_or_concat b.lines with hnil | ⟨pre, last, hsplit⟩
    · rw [hnil] at hn
      simp at hn
    · have hlast : b.lines.getLast? = some last := by
        rw [hsplit]
        simp
      have hdrop : b.lines.dropLast = pre := by
        rw [hsplit]
        simp
      obtain ⟨b', bl', h1, h2, h3, h4, h5, h7⟩ :=
        ih { b with lines := b.lines.dropLast, below := b.below ++ '\n' :: last.content, recycle := last :: b.recycle } (last :: bl)
          (by have := hn; rw [hsplit] at this; simp at this; simp [hdrop]; omega)
          (by rw [hb, encodeRev_cons])
      refine ⟨b', bl', ?_, h2, ?_, h4, h5, ?_⟩
      · simp only [shrink_lines, hlast, insert_below]
        exact h1
      · rw [h3, hdrop, hsplit]
        simp
      · intro l hl
        rcases h7 l hl with h | h
        · simp only [hdrop] at h
          exact Or.inl (by rw [hsplit]; simp [h])
        · rcases List.mem_cons.mp h with h | h
          · exact Or.inl (by rw [hsplit]; simp [h])
          · exact Or.inr h

theorem fix_lines_spec (b : Buffer) (bl : List Line)
    (hb : b.below = encodeRev bl) (hg : ∀ l ∈ bl, '\n' ∉ l.content)
    (hgl : ∀ l ∈ b.lines, '\n' ∉ l.content) :
    ∃ b' bl', fix_lines b = some b' ∧
      b'.below = encodeRev bl' ∧ (∀ l ∈ bl', '\n' ∉ l.content) ∧
      b'.lines ++ bl' = b.lines ++ bl ∧
      b'.above = b.above ∧ b'.offset = b.offset := by
  unfold fix_lines
  split
  · obtain ⟨b', bl', h1, h2, h3, h4, h5, h6⟩ :=
      shrink_lines_spec (b.lines.length - b.height) b bl (Nat.sub_le _ _) hb
    refine ⟨b', bl', h1, h2, ?_, h3, h4, h5⟩
    intro l hl
    rcases h6 l hl with h | h
    · exact hgl l h
    · exact hg l h
  · split
    · obtain ⟨b', bl', h1, h2, h3, h4, h5, h6⟩ :=
        grow_lines_spec (b.height - b.lines.length) b bl hb hg
      exact ⟨b', bl', h1, h2, h3, h4, h5, h6⟩
    · exact ⟨b, bl, rfl, hb, hg, rfl, rfl, rfl⟩

theorem partition_set_active_index {file : List Line} {b : Buffer}
    (hp : Partition file b) (act : Nat) (idx : RawIndex) :
    Partition file { b with active := act, index := idx } := by
  obtain ⟨a, bl, h1, h2, h3, h4⟩ := hp
  exact ⟨a, bl, h1, h2, h3, h4⟩

theorem partition_set_index {file : List Line} {b : Buffer}
    (hp : Partition file b) (idx : RawIndex) :
    Partition file { b with index := idx } := by
  obtain ⟨a, bl, h1, h2, h3, h4⟩ := hp
  exact ⟨a, bl, h1, h2, h3, h4⟩

theorem mem_of_partition_above {file : List Line} {b : Buffer} {a bl : List Line}
    (h3 : a ++ b.lines ++ bl = file) {l : Line} (hl : l ∈ a) : l ∈ file := by
  rw [← h3]
  simp [hl]

theorem mem_of_partition_lines {file : List Line} {b : Buffer} {a bl : List Line}
    (h3 : a ++ b.lines ++ bl = file) {l : Line} (hl : l ∈ b.lines) : l ∈ file := by
  rw [← h3]
  simp [hl]

theorem mem_of_partition_below {file : List Line} {b : Buffer} {a bl : List Line}
    (h3 : a ++ b.lines ++ bl = file) {l : Line} (hl : l ∈ bl) : l ∈ file := by
  rw [← h3]
  simp [hl]

theorem scroll_down_spec {file : List Line} {b : Buffer}
    (hg : ∀ l ∈ file, '\n' ∉ l.content) (hp : Partition file b) :
    ∃ fl b', scroll_down b = some (fl, b') ∧ Partition file b' := by
  obtain ⟨a, bl, h1, h2, h3, h4⟩ := hp
  cases bl with
  | nil =>
    refine ⟨false, b, ?_, a, [], h1, h2, h3, h4⟩
    simp [scroll_down, take_from_below_nil h2]
  | cons x xs =>
    have hx : '\n' ∉ x.content := hg x (mem_of_partition_below h3 (by simp))
    have htake := take_from_below_cons h2 hx
    cases hL : b.lines with
    | nil =>
      have heq : scroll_down b = some (true, { b with lines := ([] : List Line), above := b.above ++ '\n' :: x.content, below := encodeRev xs, offset := b.offset + 1, line_num_width := max b.line_num_width (gutterGrowth (b.offset + 1)), recycle := x :: b.recycle.tail }) := by
        simp only [scroll_down, htake]
        simp only [hL, List.nil_append, popFront, insert_above]
      refine ⟨true, _, heq, a ++ [x], xs, ?_, rfl, ?_, ?_⟩
      · simp [h1, encodeFwd_concat]
      · rw [← h3, hL]
        simp
      · simp [h4]
    | cons front rest0 =>
      have heq : scroll_down b = some (true, { b with lines := rest0 ++ [x], above := b.above ++ '\n' :: front.content, below := encodeRev xs, offset := b.offset + 1, line_num_width := max b.line_num_width (gutterGrowth (b.offset + 1)), recycle := front :: b.recycle.tail }) := by
        simp only [scroll_down, htake]
        simp only [hL, List.cons_append, popFront, insert_above]
      refine ⟨true, _, heq, a ++ [front], xs, ?_, rfl, ?_, ?_⟩
      · simp [h1, encodeFwd_concat]
      · rw [← h3, hL]
        simp
      · simp [h4]

theorem scroll_up_spec {file : List Line} {b : Buffer}
    (hg : ∀ l ∈ file, '\n' ∉ l.content) (hp : Partition file b) :
    ∃ fl b', scroll_up b = some (fl, b') ∧ Partition file b' := by
  obtain ⟨a, bl, h1, h2, h3, h4⟩ := hp
  rcases List.eq_nil_or_concat a with rfl | ⟨as, ak, rfl⟩
  · refine ⟨false, b, ?_, [], bl, h1, h2, h3, h4⟩
    simp [scroll_up, take_from_above_nil h1]
  · rw [List.concat_eq_append] at h1 h3 h4
    have hak : '\n' ∉ ak.content := hg ak (mem_of_partition_above h3 (by simp))
    have htake := take_from_above_concat h1 hak
    obtain ⟨b2, bl', hfix, hbelow2, hgood', hlines, habove2, hoffset2⟩ :=
      fix_lines_spec { b with lines := ak :: b.lines, above := encodeFwd as, recycle := b.recycle.tail } bl h2
        (fun l hl => hg l (mem_of_partition_below h3 hl))
        (by
          intro l hl
          rcases List.mem_cons.mp hl with rfl | hl
          · exact hak
          · exact hg l (mem_of_partition_lines h3 hl))
    have heq : scroll_up b = some (true, { b2 with offset := usize_sub b2.offset 1 }) := by
      simp only [scroll_up, htake]
      rw [hfix]
    refine ⟨true, _, heq, as, bl', ?_, hbelow2, ?_, ?_⟩
    · exact habove2
    · show as ++ b2.lines ++ bl' = file
      rw [List.append_assoc, hlines]
      rw [← h3]
      simp
    · show usize_sub b2.offset 1 = as.length
      rw [hoffset2, h4]
      simp [usize_sub]

theorem cursor_down_spec {file : List Line} {b : Buffer}
    (hg : ∀ l ∈ file, '\n' ∉ l.content) (hp : Partition file b) :
    ∃ fl b', cursor_down b = some (fl, b') ∧ Partition file b' := by
  by_cases hc : b.active < usize_sub b.lines.length SCROLL_GRACE
  · refine ⟨true, _, ?_, partition_set_active_index hp (b.active + 1) b.index.invalidate⟩
    simp [cursor_down, hc]
  · obtain ⟨fl, b1, hsd, hp1⟩ := scroll_down_spec hg hp
    cases fl
    · by_cases hc2 : b1.active < usize_sub b1.lines.length 1
      · refine ⟨true, _, ?_, partition_set_active_index hp1 (b1.active + 1) b1.index.invalidate⟩
        simp [cursor_down, hc, hsd, hc2]
      · refine ⟨false, b1, ?_, hp1⟩
        simp [cursor_down, hc, hsd, hc2]
    · refine ⟨true, _, ?_, partition_set_index hp1 b1.index.invalidate⟩
      simp [cursor_down, hc, hsd]

theorem cursor_up_spec {file : List Line} {b : Buffer}
    (hg : ∀ l ∈ file, '\n' ∉ l.content) (hp : Partition file b) :
    ∃ fl b', cursor_up b = some (fl, b') ∧ Partition file b' := by
  by_cases hc : SCROLL_GRACE < b.active
  · refine ⟨true, _, ?_, partition_set_active_index hp (usize_sub b.active 1) b.index.invalidate⟩
    simp [cursor_up, hc]
  · obtain ⟨fl, b1, hsu, hp1⟩ := scroll_up_spec hg hp
    cases fl
    · by_cases hc2 : 0 < b1.active
      · refine ⟨true, _, ?_, partition_set_active_index hp1 (usize_sub b1.active 1) b1.index.invalidate⟩
        simp [cursor_up, hc, hsu, hc2]
      · refine ⟨false, b1, ?_, hp1⟩
        simp [cursor_up, hc, hsu, hc2]
    · refine ⟨true, _, ?_, partition_set_index hp1 b1.index.invalidate⟩
      simp [cursor_up, hc, hsu]

theorem applyVOp_spec (op : VOp) {file : List Line} {b : Buffer}
    (hg : ∀ l ∈ file, '\n' ∉ l.content) (hp : Partition file b) :
    ∃ b', applyVOp op b = some b' ∧ Partition file b' := by
  cases op with
  | scrollUp =>
    obtain ⟨fl, b', h, hp'⟩ := scroll_up_spec hg hp
    exact ⟨b', by simp [applyVOp, h], hp'⟩
  | scrollDown =>
    obtain ⟨fl, b', h, hp'⟩ := scroll_down_spec hg hp
    exact ⟨b', by simp [applyVOp, h], hp'⟩
  | cursorUp =>
    obtain ⟨fl, b', h, hp'⟩ := cursor_up_spec hg hp
    exact ⟨b', by simp [applyVOp, h], hp'⟩
  | cursorDown =>
    obtain ⟨fl, b', h, hp'⟩ := cursor_down_spec hg hp
    exact ⟨b', by simp [applyVOp, h], hp'⟩

theorem applyVOps_spec (ops : List VOp) : ∀ {b : Buffer} {file : List Line},
    (∀ l ∈ file, '\n' ∉ l.content) → Partition file b →
    ∃ b', applyVOps ops b = some b' ∧ Partition file b' := by
  induction ops with
  | nil => exact fun hg hp => ⟨_, rfl, hp⟩
  | cons op ops ih =>
    intro b file hg hp
    obtain ⟨b1, h1, hp1⟩ := applyVOp_spec op hg hp
    obtain ⟨b', h', hp'⟩ := ih hg hp1
    exact ⟨b', by simp [applyVOps, h1, h'], hp'⟩

theorem applyScrollOp_spec (op : ScrollOp) {file : List Line} {b : Buffer}
    (hg : ∀ l ∈ file, '\n' ∉ l.content) (hp : Partition file b) :
    ∃ b', applyScrollOp op b = some b' ∧ Partition file b' := by
  cases op with
  | up =>
    obtain ⟨fl, b', h, hp'⟩ := scroll_up_spec hg hp
    exact ⟨b', by simp [applyScrollOp, h], hp'⟩
  | down =>
    obtain ⟨fl, b', h, hp'⟩ := scroll_down_spec hg hp
    exact ⟨b', by simp [applyScrollOp, h], hp'⟩

theorem applyScrollOps_spec (ops : List ScrollOp) : ∀ {b : Buffer} {file : List Line},
    (∀ l ∈ file, '\n' ∉ l.content) → Partition file b →
    ∃ b', applyScrollOps ops b = some b' ∧ Partition file b' := by
  induction ops with
  | nil => exact fun hg hp => ⟨_, rfl, hp⟩
  | cons op ops ih =>
    intro b file hg hp
    obtain ⟨b1, h1, hp1⟩ := applyScrollOp_spec op hg hp
    obtain ⟨b', h', hp'⟩ := ih hg hp1
    exact ⟨b', by simp [applyScrollOps, h1, h'], hp'⟩

theorem openBuffer_partition (file : List Line) (h : Nat) :
    Partition file (openBuffer file h) := by
  unfold openBuffer Partition
  by_cases hlt : h < file.length
  · exact ⟨[], file.drop h, by simp [encodeFwd], by simp [hlt], by simp, rfl⟩
  · refine ⟨[], [], by simp [encodeFwd], by simp [hlt, encodeRev, encodeFwd], ?_, rfl⟩
    have : file.length ≤ h := Nat.le_of_not_lt hlt
    simp [List.take_of_length_le this]

theorem correctFold_eq (d : Nat) : ∀ (vs : List Index) (acc : Index),
    correctFold d acc vs =
      (match vs.find? (fun v => d ≤ v.display) with
       | some v => v
       | none =>
         match vs.getLast? with
         | some last => ⟨last.display + 1, last.byte⟩
         | none => acc) := by
  intro vs
  induction vs with
  | nil => intro acc; rfl
  | cons v rest ih =>
    intro acc
    by_cases hd : d ≤ v.display
    · rw [correctFold, if_pos hd, List.find?_cons_of_pos _ (by simpa using hd)]
    · rw [correctFold, if_neg hd, ih, List.find?_cons_of_neg _ (by simpa using hd)]
      cases rest with
      | nil => rfl
      | cons r rs =>
        rw [List.getLast?_cons_cons]
        cases hfind : List.find? (fun v => decide (d ≤ v.display)) (r :: rs) with
        | some w => rfl
        | none =>
          cases hlast : (r :: rs).getLast? with
          | some last => rfl
          | none => simp at hlast

theorem get_middle (a mid bl : List Line) (row : Nat) (hrow : row < mid.length) :
    (a ++ mid ++ bl)[a.length + row]? = mid[row]? := by
  rw [List.append_assoc]
  rw [List.getElem?_append_right (Nat.le_add_right a.length row)]
  rw [Nat.add_sub_cancel_left]
  exact List.getElem?_append_left hrow

/-! ## The claims -/

/-- Claim C7: index correction is idempotent.  Correcting the result of a
correction (fed back as a `Valid` raw index) returns it unchanged, and
correcting an already-`Valid` raw index is the identity. -/
theorem correct_index_idempotent :
    (∀ (L : Line) (r : RawIndex),
      L.correct_index (RawIndex.Valid (L.correct_index r)) = L.correct_index r) ∧
    (∀ (L : Line) (i : Index), L.correct_index (RawIndex.Valid i) = i) :=
  ⟨fun _ _ => rfl, fun _ _ => rfl⟩

/-- Claim C3 counterexample: on the line containing a tab then `"ab"`, with
target display column 2 (inside the tab's four columns), `correct_index`
returns the index with display column 4 and byte 1 -- its display column
exceeds the target, so the result is not "the last index whose display
column does not exceed the target" as the claim states. -/
theorem correct_index_counterexample :
    Line.correct_index ⟨['\t', 'a', 'b']⟩ (RawIndex.Invalid 2) = ⟨4, 1⟩ ∧ ¬ (4 ≤ 2) :=
  ⟨rfl, by decide⟩

/-- Claim C3 (amended): for every line and every target display column `d`,
`correct_index` on `Invalid d` returns the first char-start index whose
display column is at least `d`; if no char start reaches `d` it returns the
last char-start index with its display column bumped by one (byte offset
unchanged), and the zero index on the empty line.  In particular, on a line
containing a single tab followed by `"ab"`, target display 5 resolves to
byte offset 2, the position after `'a'`. -/
theorem correct_index_characterization :
    (∀ (L : Line) (d : Nat), L.correct_index (RawIndex.Invalid d) = correctIndexSpec L d) ∧
    Line.correct_index ⟨['\t', 'a', 'b']⟩ (RawIndex.Invalid 5) = ⟨5, 2⟩ := by
  constructor
  · intro L d
    show correctFold d ⟨0, 0⟩ L.indices = _
    rw [correctFold_eq]
    rfl
  · rfl

/-- Claim C4 (evaluation of the defect): on the line `"ab"`, `index_forward`
at the valid boundary index `(0,0)` returns its argument unchanged instead of
the index one character after, and `index_backward` at `(1,1)` likewise
returns its argument; the `None`-at-the-edge halves do hold. -/
theorem index_step_stays_in_place :
    Line.index_forward ⟨['a', 'b']⟩ ⟨0, 0⟩ = some (some ⟨0, 0⟩) ∧
    Line.index_backward ⟨['a', 'b']⟩ ⟨1, 1⟩ = some (some ⟨1, 1⟩) ∧
    Line.index_forward ⟨['a', 'b']⟩ ⟨2, 2⟩ = some none ∧
    Line.index_backward ⟨['a', 'b']⟩ ⟨0, 0⟩ = some none :=
  ⟨rfl, rfl, rfl, rfl⟩

/-- Claim C5 (evaluation of the defect): on the line `"ab"` (byte length 2,
display width 2), `index_back` returns the index `(1,1)` of the start of the
last character, not the one-past-the-last index `(2,2)` the claim
describes -- both from an `Invalid` raw index and from the valid line
start. -/
theorem index_back_returns_last_char_start :
    Line.index_back ⟨['a', 'b']⟩ (RawIndex.Invalid 0) = some ⟨1, 1⟩ ∧
    Line.index_back ⟨['a', 'b']⟩ (RawIndex.Valid ⟨0, 0⟩) = some ⟨1, 1⟩ ∧
    byteLen ['a', 'b'] = 2 ∧ widthSum ['a', 'b'] = 2 :=
  ⟨rfl, rfl, rfl, rfl⟩

/-- Claim C2 counterexample: opening the ten-line digit file with viewport
height 5 and pressing Down four times does not leave `active = 3` as the
claim states (the grace arithmetic triggers the first scroll on the third
press already). -/
theorem scenarioB_counterexample :
    (down4 (openBuffer file10 5)).map Buffer.active ≠ some 3 := by decide

/-- Claim C2 (amended): from the ten-line file opened at height 5 (scenario
A holds: visible lines 1-5, below holds lines 6-10, above empty, active 0,
offset 0), four Down presses leave `active = 2`: the third and fourth press
each trigger one scroll, so visible holds lines 3-7, `above` holds lines 1-2,
`below` holds lines 8-10, and `offset = 2`. -/
theorem scenarioB_actual_state :
    openBuffer file10 5 =
      { lines := [⟨['0']⟩, ⟨['1']⟩, ⟨['2']⟩, ⟨['3']⟩, ⟨['4']⟩],
        above := [], below := ['\n', '9', '\n', '8', '\n', '7', '\n', '6', '\n', '5'],
        active := 0, index := RawIndex.Valid ⟨0, 0⟩, offset := 0,
        line_num_width := 3, height := 5, recycle := [] } ∧
    down4 (openBuffer file10 5) = some
      { lines := [⟨['2']⟩, ⟨['3']⟩, ⟨['4']⟩, ⟨['5']⟩, ⟨['6']⟩],
        above := ['\n', '0', '\n', '1'], below := ['\n', '9', '\n', '8', '\n', '7'],
        active := 2, index := RawIndex.Invalid 0, offset := 2,
        line_num_width := 3, height := 5, recycle := [⟨['1']⟩] } := by
  constructor
  · decide
  · decide

/-- Claim C6 counterexample: after two Down presses on a three-line file the
buffer sits on the true last line (`below` empty, `active` on the last
visible line); a third Down press is not a no-op -- it changes the state (the
cursor index is clamped from `Invalid 0` to `Valid (0,0)`). -/
theorem down_at_last_line_changes_state :
    ((updateDown (openBuffer file3 5)).bind updateDown).bind updateDown ≠
      (updateDown (openBuffer file3 5)).bind updateDown := by decide

/-- Claim C6 (amended): in any state on the true last line of the file
(`below` empty, `active` on the last of at least `SCROLL_GRACE` visible
lines), a plain Down key event triggers no scroll and leaves every field of
the buffer unchanged except the cursor index, which is set to the
`index_back` position of the active line. -/
theorem down_at_last_line_clamps_index (b : Buffer) (line : Line) (i : Index)
    (h1 : b.below = []) (h2 : b.active = b.lines.length - 1)
    (h3 : 3 ≤ b.lines.length) (h4 : current_line b = some line)
    (h5 : line.index_back b.index = some i) :
    updateDown b = some { b with index := RawIndex.Valid i } := by
  have hnot1 : ¬ (b.active < usize_sub b.lines.length SCROLL_GRACE) := by
    simp only [usize_sub, SCROLL_GRACE]
    rw [if_pos h3]
    omega
  have hsd : scroll_down b = some (false, b) := by
    simp [scroll_down, take_from_below_nil h1]
  have hnot2 : ¬ (b.active < usize_sub b.lines.length 1) := by
    simp only [usize_sub]
    rw [if_pos (by omega : 1 ≤ b.lines.length)]
    omega
  have hcd : cursor_down b = some (false, b) := by
    simp only [cursor_down, if_neg hnot1, hsd, if_neg hnot2]
  simp only [updateDown, hcd, h4, h5]

/-- Witness for the amended claim C6, at the concrete reachable three-line
buffer on its last line. -/
theorem down_at_last_line_clamps_index_witness :
    lastLineBuf.below = [] ∧ lastLineBuf.active = lastLineBuf.lines.length - 1 ∧
    3 ≤ lastLineBuf.lines.length ∧ current_line lastLineBuf = some ⟨['c']⟩ ∧
    Line.index_back ⟨['c']⟩ lastLineBuf.index = some ⟨0, 0⟩ ∧
    updateDown lastLineBuf = some { lastLineBuf with index := RawIndex.Valid ⟨0, 0⟩ } :=
  ⟨rfl, rfl, by decide, rfl, rfl,
    down_at_last_line_clamps_index lastLineBuf ⟨['c']⟩ ⟨0, 0⟩ rfl rfl (by decide) rfl rfl⟩

/-- Claim C8 (evaluation of the defect): on a two-line file (fewer lines than
the scroll grace of 3) two Down presses drive `active` to 2 while only two
lines are visible, so `active` is no longer a valid index into the visible
lines: `lines.len() - SCROLL_GRACE` underflows and the first guard of
`cursor_down` accepts every increment. -/
theorem cursor_down_escapes_short_file :
    ((updateDown (openBuffer file2 5)).bind updateDown).map
      (fun b => (b.active, b.lines.length)) = some (2, 2) := by decide

/-- Claim C1: for every file, viewport height and sequence of
scroll-up/scroll-down operations applied to a buffer opened on that file,
every operation succeeds and the lines held in `above`, the visible lines,
and the lines held in `below` concatenate (in order) to exactly the original
file lines, with no duplication or loss. -/
theorem scroll_partition_roundtrip (file : List Line) (h : Nat) (ops : List ScrollOp)
    (hg : ∀ l ∈ file, '\n' ∉ l.content) :
    ∃ s a bl, applyScrollOps ops (openBuffer file h) = some s ∧
      s.above = encodeFwd a ∧ s.below = encodeRev bl ∧ a ++ s.lines ++ bl = file := by
  obtain ⟨s, hs, a, bl, h1, h2, h3, _⟩ :=
    applyScrollOps_spec ops hg (openBuffer_partition file h)
  exact ⟨s, a, bl, hs, h1, h2, h3⟩

/-- Witness for claim C1 at a concrete two-line file and the scroll sequence
down-then-up. -/
theorem scroll_partition_roundtrip_witness :
    (∀ l ∈ fileP, '\n' ∉ l.content) ∧
    ∃ s a bl, applyScrollOps [ScrollOp.down, ScrollOp.up] (openBuffer fileP 1) = some s ∧
      s.above = encodeFwd a ∧ s.below = encodeRev bl ∧ a ++ s.lines ++ bl = fileP :=
  ⟨by decide, scroll_partition_roundtrip fileP 1 [ScrollOp.down, ScrollOp.up] (by decide)⟩

/-- Claim C9: in every state reachable from opening a file by scroll and
vertical cursor operations, `offset` equals the number of lines stored in
`above`; consequently whenever `above` is non-empty (the only situation in
which `scroll_up` decrements `offset`) `offset` is strictly positive, so the
decrement cannot underflow, and `offset + row` indexes the absolute file line
shown at visible row `row`. -/
theorem offset_counts_above_lines (file : List Line) (h : Nat) (ops : List VOp)
    (hg : ∀ l ∈ file, '\n' ∉ l.content) :
    ∃ s a bl, applyVOps ops (openBuffer file h) = some s ∧
      s.above = encodeFwd a ∧ s.below = encodeRev bl ∧
      a ++ s.lines ++ bl = file ∧ s.offset = a.length ∧
      (s.above ≠ [] → 0 < s.offset) ∧
      (∀ row, row < s.lines.length → s.lines[row]? = file[s.offset + row]?) := by
  obtain ⟨s, hs, a, bl, h1, h2, h3, h4⟩ :=
    applyVOps_spec ops hg (openBuffer_partition file h)
  refine ⟨s, a, bl, hs, h1, h2, h3, h4, ?_, ?_⟩
  · intro hne
    rw [h4]
    cases a with
    | nil => exact absurd h1 hne
    | cons y ys => simp
  · intro row hrow
    rw [h4, ← h3]
    exact (get_middle a s.lines bl row hrow).symm

/-- Witness for claim C9 at a concrete three-line file and one cursor-down
step. -/
theorem offset_counts_above_lines_witness :
    (∀ l ∈ fileX, '\n' ∉ l.content) ∧
    ∃ s a bl, applyVOps [VOp.cursorDown] (openBuffer fileX 1) = some s ∧
      s.above = encodeFwd a ∧ s.below = encodeRev bl ∧
      a ++ s.lines ++ bl = fileX ∧ s.offset = a.length ∧
      (s.above ≠ [] → 0 < s.offset) ∧
      (∀ row, row < s.lines.length → s.lines[row]? = fileX[s.offset + row]?) :=
  ⟨by decide, offset_counts_above_lines fileX 1 [VOp.cursorDown] (by decide)⟩

/-- Claim C10: in every state reachable from opening a file by scroll and
vertical cursor operations, a non-empty `above` (resp. `below`) block
contains at least one newline, the `rfind('\n')` lookup on it succeeds, and
the "newline before each line" error branches of `take_from_above` and
`take_from_below` are unreachable. -/
theorem reservoir_nonempty_has_newline (file : List Line) (h : Nat) (ops : List VOp)
    (hg : ∀ l ∈ file, '\n' ∉ l.content) :
    ∃ s, applyVOps ops (openBuffer file h) = some s ∧
      (s.above ≠ [] → '\n' ∈ s.above ∧ (rfindNlAux s.above).isSome) ∧
      (s.below ≠ [] → '\n' ∈ s.below ∧ (rfindNlAux s.below).isSome) ∧
      take_from_above s ≠ none ∧ take_from_below s ≠ none := by
  obtain ⟨s, hs, a, bl, h1, h2, h3, _⟩ :=
    applyVOps_spec ops hg (openBuffer_partition file h)
  refine ⟨s, hs, ?_, ?_, ?_, ?_⟩
  · intro hne
    rcases List.eq_nil_or_concat a with rfl | ⟨as, ak, rfl⟩
    · exact absurd h1 hne
    · rw [List.concat_eq_append] at h1 h3
      constructor
      · rw [h1, encodeFwd_concat]
        simp
      · rw [h1, encodeFwd_concat,
          rfindNl_append _ (hg ak (mem_of_partition_above h3 (by simp)))]
        rfl
  · intro hne
    cases bl with
    | nil => exact absurd h2 hne
    | cons x xs =>
      constructor
      · rw [h2, encodeRev_cons]
        simp
      · rw [h2, encodeRev_cons,
          rfindNl_append _ (hg x (mem_of_partition_below h3 (by simp)))]
        rfl
  · rcases List.eq_nil_or_concat a with rfl | ⟨as, ak, rfl⟩
    · rw [take_from_above_nil h1]
      simp
    · rw [List.concat_eq_append] at h1 h3
      rw [take_from_above_concat h1 (hg ak (mem_of_partition_above h3 (by simp)))]
      simp
  · cases bl with
    | nil =>
      rw [take_from_below_nil h2]
      simp
    | cons x xs =>
      rw [take_from_below_cons h2 (hg x (mem_of_partition_below h3 (by simp)))]
      simp

/-- Witness for claim C10 at a concrete two-line file and one scroll-down
step. -/
theorem reservoir_nonempty_has_newline_witness :
    (∀ l ∈ fileW, '\n' ∉ l.content) ∧
    ∃ s, applyVOps [VOp.scrollDown] (openBuffer fileW 1) = some s ∧
      (s.above ≠ [] → '\n' ∈ s.above ∧ (rfindNlAux s.above).isSome) ∧
      (s.below ≠ [] → '\n' ∈ s.below ∧ (rfindNlAux s.below).isSome) ∧
      take_from_above s ≠ none ∧ take_from_below s ≠ none :=
  ⟨by decide, reservoir_nonempty_has_newline fileW 1 [VOp.scrollDown] (by decide)⟩

end Neonano
